import Mathlib

/-!
Verification of launchr `pkg/types/container.go`: build-definition resolution
and decoding.

A shallow embedding of `BuildDefinition.ImageBuildInfo` and
`BuildDefinition.UnmarshalYAML`, together with the parts of the Go standard
library and runtime they rest on:

* `path/filepath` on a Unix host (`IsAbs`, `Join`, `Clean`),
* the built-in `append` on a `[]string` (slice header + backing array),
* pointers to `BuildDefinition` values (an explicit heap).

Go strings are modelled by Lean strings; the path functions only ever inspect
the ASCII bytes `/` and `.`, which in UTF-8 occur only as those characters.
-/

namespace Launchr

/-! ## `path/filepath` (Unix) -/

/-- Unix `os.IsPathSeparator`: the only separator is the slash. -/
def IsPathSeparator (c : Char) : Bool := c == '/'

/-- Unix `filepath.IsAbs`: `strings.HasPrefix(path, "/")`. -/
def IsAbs (path : String) : Bool :=
  match path.data with
  | c :: _ => c == '/'
  | [] => false

/-- The backtracking step of `Clean` on a `..` element when `out.w > dotdot`:
`out.w--; for out.w > dotdot && !IsPathSeparator(out.index(out.w)) { out.w-- }`.
The buffer `buf[:w]` is held as a stack (last written byte first), so the head
`x` is the byte at index `w` after the decrement and the tail has length `w`. -/
def cleanBacktrack (dotdot : Nat) : List Char → List Char
  | [] => []
  | x :: out =>
    if out.length > dotdot && !IsPathSeparator x then cleanBacktrack dotdot out
    else out

/-- The main loop `for r < n { switch ... }` of `filepath.Clean`.
`rest` is the unread input `path[r:]`, `out` is the written output `buf[:w]`
as a stack (so `out.length` is `out.w`), `dotdot` is the index where `..`
must stop.  Every iteration consumes at least one byte of `rest`; `fuel`
bounds the number of iterations and `Clean` supplies `len(path)`.  The result
is the final stack. -/
def cleanLoop (rooted : Bool) : Nat → List Char → List Char → Nat → List Char
  | 0, _, out, _ => out
  | fuel + 1, rest, out, dotdot =>
    match rest with
    | [] => out
    | c :: rest1 =>
      if IsPathSeparator c then
        -- empty path element
        cleanLoop rooted fuel rest1 out dotdot
      else if c == '.' && (rest1.isEmpty || (rest1.head?.map IsPathSeparator).getD false) then
        -- . element
        cleanLoop rooted fuel rest1 out dotdot
      else if c == '.' && rest1.head? == some '.'
          && (rest1.tail.isEmpty || (rest1.tail.head?.map IsPathSeparator).getD false) then
        -- .. element: remove to last separator
        if out.length > dotdot then
          -- can backtrack
          cleanLoop rooted fuel rest1.tail (cleanBacktrack dotdot out) dotdot
        else if !rooted then
          -- cannot backtrack, but not rooted, so append .. element
          let out1 := if out.length > 0 then '/' :: out else out
          let out2 := '.' :: '.' :: out1
          cleanLoop rooted fuel rest1.tail out2 out2.length
        else
          cleanLoop rooted fuel rest1.tail out dotdot
      else
        -- real path element: add slash if needed, then copy the element
        let out1 :=
          if (rooted && out.length != 1) || (!rooted && out.length != 0) then '/' :: out
          else out
        let elem := (c :: rest1).takeWhile (fun x => !IsPathSeparator x)
        let rest2 := (c :: rest1).dropWhile (fun x => !IsPathSeparator x)
        cleanLoop rooted fuel rest2 (elem.reverse ++ out1) dotdot

/-- Unix `filepath.Clean` on the bytes of a path (no volume name, `FromSlash`
is the identity). -/
def cleanChars (path : List Char) : List Char :=
  match path with
  | [] => ['.']
  | c :: _ =>
    let rooted := IsPathSeparator c
    let out0 : List Char := if rooted then ['/'] else []
    let rest0 := if rooted then path.tail else path
    let dotdot0 := if rooted then 1 else 0
    let out := cleanLoop rooted path.length rest0 out0 dotdot0
    -- Turn empty string into "."
    if out.length == 0 then ['.'] else out.reverse

/-- Unix `filepath.Clean`. -/
def Clean (path : String) : String := ⟨cleanChars path.data⟩

/-- Go `strings.Join(elems, sep)`. -/
def stringsJoin : List String → String → String
  | [], _ => ""
  | [e], _ => e
  | e :: es, sep => e ++ sep ++ stringsJoin es sep

/-- Unix `filepath.Join`: drop leading empty elements, join the rest with the
separator and `Clean` the result; all elements empty gives the empty string. -/
def Join : List String → String
  | [] => ""
  | e :: es => if e != "" then Clean (stringsJoin (e :: es) "/") else Join es

/-! ## Normal form of an absolute path -/

/-- The segments of a path: the pieces between separators, so `a//b/` has the
segments `a`, empty, `b`, empty. -/
def splitPath : List Char → List (List Char)
  | [] => [[]]
  | c :: cs =>
    if IsPathSeparator c then [] :: splitPath cs
    else
      match splitPath cs with
      | [] => [[c]]
      | s :: ss => (c :: s) :: ss

/-- Normal form of an absolute Unix path, in the words of the specification:
the path starts with a separator, and it is either the root itself or what
follows the leading separator has no empty segment (no doubled and no trailing
separator), no `.` segment and no `..` segment. -/
def isNormalised (p : String) : Bool :=
  match p.data with
  | [] => false
  | c :: rest =>
    IsPathSeparator c &&
      (rest.isEmpty ||
        (splitPath rest).all (fun s => !s.isEmpty && s != ['.'] && s != ['.', '.']))

/-- A segment that `Clean` keeps in a rooted path: non-empty, free of
separators, and neither `.` nor `..`. -/
def GoodSeg (s : List Char) : Prop :=
  s ≠ [] ∧ (∀ c ∈ s, IsPathSeparator c = false) ∧ s ≠ ['.'] ∧ s ≠ ['.', '.']

/-- The output stack of `Clean` on a rooted path holding the given segments,
most recent first: each segment reversed, separators between them, and the
leading slash at the bottom. -/
def stackOf : List (List Char) → List Char
  | [] => ['/']
  | [s] => s.reverse ++ ['/']
  | s :: s2 :: ss => s.reverse ++ '/' :: stackOf (s2 :: ss)

/-- The path after the leading slash that `stackOf` stands for: the segments,
oldest first, joined by single separators. -/
def bodyOf : List (List Char) → List Char
  | [] => []
  | [s] => s
  | s :: s2 :: ss => bodyOf (s2 :: ss) ++ '/' :: s

/-! ## Memory: slices, backing arrays, maps and `BuildDefinition` objects -/

/-- A heap address (an index into one of the stores of `Mem` or `Heap`). -/
abbrev Addr := Nat

/-- A Go `[]string` header: pointer to the backing array (`none` for the nil
slice), offset of the first element in it, length and capacity. -/
structure Slice where
  arr : Option Addr
  off : Nat
  len : Nat
  cap : Nat
deriving DecidableEq, Repr

/-- The nil slice. -/
def Slice.nil : Slice := { arr := none, off := 0, len := 0, cap := 0 }

/-- Storage of the reference-typed fields: backing arrays of `[]string` and
the contents of `map[string]*string` values (a `*string` is `none` for a nil
pointer, so an absent value stays distinct from the empty string). -/
structure Mem where
  arrays : List (List String)
  maps : List (List (String × Option String))
deriving DecidableEq, Repr

/-- Go `type BuildDefinition struct`: `Args` is a map reference (`none` is the
nil map), `Tags` a slice header. -/
structure BuildDefinition where
  Context : String
  Buildfile : String
  Args : Option Addr
  Tags : Slice
deriving DecidableEq, Repr

/-- Go `type yamlBuildOptions BuildDefinition`: same underlying type. -/
abbrev yamlBuildOptions := BuildDefinition

/-- The heap: allocated `BuildDefinition` objects (a `*BuildDefinition` is an
index here) and the container storage. -/
structure Heap where
  defs : List BuildDefinition
  mem : Mem
deriving DecidableEq, Repr

/-- A slice header is well formed in `m`: `len ≤ cap`, a nil slice has
capacity zero, and otherwise `[off, off + cap)` lies inside its backing
array. -/
def Slice.valid (m : Mem) (s : Slice) : Bool :=
  decide (s.len ≤ s.cap) &&
    match s.arr with
    | none => s.cap == 0
    | some a =>
      match m.arrays[a]? with
      | none => false
      | some arr => decide (s.off + s.cap ≤ arr.length)

/-- The elements `s[0], ..., s[len-1]` of a slice as seen in `m`. -/
def Slice.read (m : Mem) (s : Slice) : List String :=
  match s.arr with
  | none => []
  | some a => ((m.arrays.getD a []).drop s.off).take s.len

/-- The entries of a map reference as seen in `m` (the nil map has none). -/
def readArgs (m : Mem) (r : Option Addr) : List (String × Option String) :=
  match r with
  | none => []
  | some a => m.maps.getD a []

/-- The Go runtime policy choosing the capacity of a grown slice
(`runtime.growslice`), as a function of the needed length and the old
capacity.  It is a parameter of the model. -/
structure Runtime where
  growCap : Nat → Nat → Nat

/-- Go built-in `append(s, x)` for a `[]string`.  With spare capacity the
element is written into the shared backing array at index `off + len` and the
header only gets longer; otherwise a new backing array is allocated, big
enough for the new length, the old elements are copied and `x` is stored
after them. -/
def goAppend (rt : Runtime) (m : Mem) (s : Slice) (x : String) : Mem × Slice :=
  let inPlace : Option (Mem × Slice) :=
    match s.arr with
    | some a =>
      if s.len < s.cap then
        some ({ m with arrays := m.arrays.set a ((m.arrays.getD a []).set (s.off + s.len) x) },
              { s with len := s.len + 1 })
      else none
    | none => none
  match inPlace with
  | some r => r
  | none =>
    let newLen := s.len + 1
    let newCap := max newLen (rt.growCap newLen s.cap)
    let newArr := s.read m ++ [x] ++ List.replicate (newCap - newLen) ""
    ({ m with arrays := m.arrays ++ [newArr] },
     { arr := some m.arrays.length, off := 0, len := newLen, cap := newCap })

/-! ## `BuildDefinition.ImageBuildInfo` -/

/-- Go `func (b *BuildDefinition) ImageBuildInfo(name string, cwd string) *BuildDefinition`.
The receiver is a pointer (`none` is nil).  The outer `Option` is `none` only
when a non-nil receiver does not point to an allocated object, which Go's
memory safety excludes. -/
def ImageBuildInfo (rt : Runtime) (h : Heap) (b : Option Addr) (name cwd : String) :
    Option (Heap × Option Addr) :=
  match b with
  | none => some (h, none)
  | some p =>
    match h.defs[p]? with
    | none => none
    | some bv =>
      -- build := *b
      let build : BuildDefinition := bv
      let build1 : BuildDefinition :=
        if !IsAbs bv.Context then { build with Context := Join [cwd, build.Context] }
        else build
      let r : Mem × BuildDefinition :=
        if name != "" then
          let a := goAppend rt h.mem build1.Tags name
          (a.1, { build1 with Tags := a.2 })
        else (h.mem, build1)
      -- return &build
      some ({ defs := h.defs ++ [r.2], mem := r.1 }, some h.defs.length)

/-! ## `BuildDefinition.UnmarshalYAML` -/

/-- Kind of a `yaml.Node` (`yaml.Kind`, a `uint32` bit flag). -/
abbrev Kind := Nat

/-- Constant `yaml.DocumentNode` (`1 << iota`). -/
def DocumentNode : Kind := 1
/-- Constant `yaml.SequenceNode`. -/
def SequenceNode : Kind := 2
/-- Constant `yaml.MappingNode`. -/
def MappingNode : Kind := 4
/-- Constant `yaml.ScalarNode`. -/
def ScalarNode : Kind := 8
/-- Constant `yaml.AliasNode`. -/
def AliasNode : Kind := 16

/-- A `yaml.Node`, reduced to the field the code reads (`Kind`) and an
identifier standing for the rest of its content, which only the decoder
inspects. -/
structure Node where
  Kind : Kind
  content : Nat
deriving DecidableEq, Repr

/-- The behaviour of `(*yaml.Node).Decode` from `gopkg.in/yaml.v3`, a parameter
of the model.  `decodeString n` is the outcome of `n.Decode(&s)` for a
`string` variable: the value left in `s` and the returned error (`none` is
nil).  `decodeStruct n m` is the outcome of `n.Decode(&s)` for a
`yamlBuildOptions` variable: the container storage after the call (the
decoder may allocate the map and the tag array), the value left in `s` and
the returned error. -/
structure Decoder (Err : Type) where
  decodeString : Node → String × Option Err
  decodeStruct : Node → Mem → Mem × yamlBuildOptions × Option Err

/-- Go `func (b *BuildDefinition) UnmarshalYAML(n *yaml.Node) (err error)`.
The receiver `b` is the address of the object decoded into.  The result is the
heap after the call and the returned error; the outer `Option` is `none` only
when `b` does not point to an allocated object. -/
def UnmarshalYAML {Err : Type} (dec : Decoder Err) (h : Heap) (b : Addr) (n : Node) :
    Option (Heap × Option Err) :=
  if b < h.defs.length then
    if n.Kind == ScalarNode then
      let d := dec.decodeString n
      -- *b = BuildDefinition{Context: s}
      let v : BuildDefinition :=
        { Context := d.1, Buildfile := "", Args := none, Tags := Slice.nil }
      some ({ h with defs := h.defs.set b v }, d.2)
    else
      let d := dec.decodeStruct n h.mem
      match d.2.2 with
      | some e => some ({ h with mem := d.1 }, some e)
      | none =>
        -- *b = BuildDefinition(s)
        some ({ defs := h.defs.set b d.2.1, mem := d.1 }, none)
  else none

/-! ## Concrete inputs used to exercise the theorems -/

/-- A growth policy that doubles the old capacity. -/
def exRuntime : Runtime := { growCap := fun _ c => 2 * c }

/-- A build definition with a relative context, a two-entry argument map and
the tags `["v1"]` held in a backing array with one spare slot. -/
def exDef : BuildDefinition :=
  { Context := "./src", Buildfile := "Dockerfile", Args := some 0,
    Tags := { arr := some 0, off := 0, len := 1, cap := 2 } }

/-- A build definition with an absolute, non-normalised context and nil tags. -/
def exDefAbs : BuildDefinition :=
  { Context := "/opt//app/.", Buildfile := "", Args := none, Tags := Slice.nil }

/-- A heap holding `exDef` at address 0 and `exDefAbs` at address 1. -/
def exHeap : Heap :=
  { defs := [exDef, exDefAbs],
    mem := { arrays := [["v1", ""]], maps := [[("K", some "v"), ("E", none)]] } }

/-- A decoder for three sample nodes: content 0 is the scalar `./src`, content
1 is the mapping `{context: ./app, buildfile: Dockerfile.dev, tags: [v1, v2]}`,
anything else is a mapping whose `tags` is a scalar, which fails to decode. -/
def exDecoder : Decoder String :=
  { decodeString := fun n =>
      if n.content = 0 then ("./src", none) else ("", some "yaml: cannot unmarshal into string")
    decodeStruct := fun n m =>
      if n.content = 1 then
        ({ m with arrays := m.arrays ++ [["v1", "v2"]] },
         { Context := "./app", Buildfile := "Dockerfile.dev", Args := none,
           Tags := { arr := some m.arrays.length, off := 0, len := 2, cap := 2 } },
         none)
      else
        (m, { Context := "./app", Buildfile := "", Args := none, Tags := Slice.nil },
         some "yaml: cannot unmarshal !!str into []string") }

/-- A heap holding a definition with the empty context at address 0 and one
with the context `../x/./y` at address 1, both with nil `Args` and `Tags`. -/
def exHeapPaths : Heap :=
  { defs := [{ Context := "", Buildfile := "", Args := none, Tags := Slice.nil },
             { Context := "../x/./y", Buildfile := "", Args := none, Tags := Slice.nil }],
    mem := { arrays := [], maps := [] } }

/-! ## Lemmas on slices and `append` -/

theorem list_set_window (arr : List String) (off len : Nat) (x : String)
    (hb : off + len < arr.length) :
    ((arr.set (off + len) x).drop off).take (len + 1) = (arr.drop off).take len ++ [x] := by
  apply List.ext_getElem?
  intro i
  have hlen : (List.take len (List.drop off arr)).length = len := by
    simp only [List.length_take, List.length_drop]; omega
  simp only [List.getElem?_take, List.getElem?_drop, List.getElem?_set, List.getElem?_append, hlen]
  rcases Nat.lt_trichotomy i len with hlt | heq | hgt
  · have h1 : i < len + 1 := by omega
    have h2 : ¬ (off + len = off + i) := by omega
    simp [h1, h2, hlt]
  · subst heq
    simp [hb]
  · have h1 : ¬ (i < len + 1) := by omega
    have h2 : ¬ (i < len) := by omega
    simp [h1, h2]
    cases hk : i - len with
    | zero => omega
    | succ k => simp

theorem list_set_outside (arr : List String) (off len j : Nat) (x : String)
    (hj : off + len ≤ j) :
    ((arr.set j x).drop off).take len = (arr.drop off).take len := by
  apply List.ext_getElem?
  intro i
  simp only [List.getElem?_take, List.getElem?_drop, List.getElem?_set]
  by_cases hi : i < len
  · have h2 : ¬ (j = off + i) := by omega
    simp [hi, h2]
  · simp [hi]

/-- What `Slice.valid` says for a slice with a backing array. -/
theorem Slice.valid_some {m : Mem} {s : Slice} {a : Addr} (ha : s.arr = some a)
    (hv : s.valid m = true) :
    s.len ≤ s.cap ∧ ∃ arr, m.arrays[a]? = some arr ∧ s.off + s.cap ≤ arr.length := by
  unfold Slice.valid at hv
  rw [ha] at hv
  simp only [Bool.and_eq_true, decide_eq_true_eq] at hv
  refine ⟨hv.1, ?_⟩
  cases hq : m.arrays[a]? with
  | none => rw [hq] at hv; simp at hv
  | some arr =>
    rw [hq] at hv
    exact ⟨arr, rfl, by simpa using hv.2⟩

/-- What `Slice.valid` says for the nil slice. -/
theorem Slice.valid_none {m : Mem} {s : Slice} (ha : s.arr = none)
    (hv : s.valid m = true) : s.len = 0 ∧ s.cap = 0 := by
  unfold Slice.valid at hv
  rw [ha] at hv
  simp only [Bool.and_eq_true, decide_eq_true_eq, beq_iff_eq] at hv
  omega

/-- A valid slice shows exactly `len` elements. -/
theorem Slice.read_length {m : Mem} {s : Slice} (hv : s.valid m = true) :
    (s.read m).length = s.len := by
  cases ha : s.arr with
  | none =>
    have := Slice.valid_none ha hv
    simp [Slice.read, ha, this.1]
  | some a =>
    obtain ⟨h1, arr, h2, h3⟩ := Slice.valid_some ha hv
    have hget : m.arrays.getD a [] = arr := by
      simp [List.getD_eq_getElem?_getD, h2]
    simp only [Slice.read, ha, hget, List.length_take, List.length_drop]
    omega

/-- The slice returned by `append` shows the old elements followed by the new
one. -/
theorem goAppend_read (rt : Runtime) (m : Mem) (s : Slice) (x : String)
    (hv : s.valid m = true) :
    (goAppend rt m s x).2.read (goAppend rt m s x).1 = s.read m ++ [x] := by
  have hlen := Slice.read_length hv
  have grow : ∀ (newCap : Nat),
      Slice.read { m with arrays := m.arrays ++ [s.read m ++ [x] ++ List.replicate (newCap - (s.len + 1)) ""] }
        { arr := some m.arrays.length, off := 0, len := s.len + 1, cap := newCap }
      = s.read m ++ [x] := by
    intro newCap
    generalize s.read m = T at hlen
    simp only [Slice.read, List.getD_eq_getElem?_getD, List.drop_zero]
    rw [List.getElem?_append_right (Nat.le_refl _)]
    simp only [Nat.sub_self, List.getElem?_cons_zero, Option.getD_some]
    rw [List.take_append_of_le_length (by simp [hlen])]
    apply List.take_of_length_le
    simp [hlen]
  cases ha : s.arr with
  | none =>
    simp only [goAppend, ha]
    exact grow _
  | some a =>
    by_cases hc : s.len < s.cap
    · obtain ⟨_, arr, h2, h3⟩ := Slice.valid_some ha hv
      have hget : m.arrays.getD a [] = arr := by
        simp [List.getD_eq_getElem?_getD, h2]
      have ha_lt : a < m.arrays.length := by
        rcases Nat.lt_or_ge a m.arrays.length with h | h
        · exact h
        · rw [List.getElem?_eq_none h] at h2; cases h2
      simp only [goAppend, ha, hc, if_true, Slice.read, hget]
      rw [List.getD_eq_getElem?_getD, List.getElem?_set_eq_of_lt _ ha_lt]
      simp only [Option.getD_some]
      exact list_set_window arr s.off s.len x (by omega)
    · simp only [goAppend, ha, hc, if_false]
      exact grow _

/-- The function `append` leaves what the argument slice shows unchanged. -/
theorem goAppend_frame (rt : Runtime) (m : Mem) (s : Slice) (x : String)
    (hv : s.valid m = true) :
    s.read (goAppend rt m s x).1 = s.read m := by
  have grow : ∀ (newArr : List String),
      s.read { m with arrays := m.arrays ++ [newArr] } = s.read m := by
    intro newArr
    cases ha : s.arr with
    | none => simp [Slice.read, ha]
    | some a =>
      obtain ⟨_, arr, h2, h3⟩ := Slice.valid_some ha hv
      have ha_lt : a < m.arrays.length := by
        rcases Nat.lt_or_ge a m.arrays.length with h | h
        · exact h
        · rw [List.getElem?_eq_none h] at h2; cases h2
      simp only [Slice.read, ha, List.getD_eq_getElem?_getD]
      rw [List.getElem?_append_left ha_lt]
  cases ha : s.arr with
  | none =>
    simp only [goAppend, ha]
    exact grow _
  | some a =>
    by_cases hc : s.len < s.cap
    · obtain ⟨_, arr, h2, h3⟩ := Slice.valid_some ha hv
      have hget : m.arrays.getD a [] = arr := by
        simp [List.getD_eq_getElem?_getD, h2]
      have ha_lt : a < m.arrays.length := by
        rcases Nat.lt_or_ge a m.arrays.length with h | h
        · exact h
        · rw [List.getElem?_eq_none h] at h2; cases h2
      simp only [goAppend, ha, hc, if_true, Slice.read, hget]
      rw [List.getD_eq_getElem?_getD, List.getElem?_set_eq_of_lt _ ha_lt]
      simp only [Option.getD_some]
      exact list_set_outside arr s.off s.len (s.off + s.len) x (Nat.le_refl _)
    · simp only [goAppend, ha, hc, if_false]
      exact grow _

/-! ## Lemmas on `Clean` and `Join` for rooted paths -/

/-- Backtracking above the leading slash keeps the leading slash. -/
theorem cleanBacktrack_rooted (out : List Char) :
    ∀ pre : List Char, out = pre ++ ['/'] → 1 < out.length →
      ∃ pre2 : List Char, cleanBacktrack 1 out = pre2 ++ ['/'] := by
  induction out with
  | nil => intro pre _ hl; simp at hl
  | cons x out ih =>
    intro pre hpre hl
    cases pre with
    | nil => simp at hpre; rw [hpre.2] at hl; simp at hl
    | cons y pre1 =>
      have hout : out = pre1 ++ ['/'] := by
        simp at hpre; exact hpre.2
      unfold cleanBacktrack
      by_cases hc : (decide (out.length > 1) && !IsPathSeparator x) = true
      · rw [if_pos hc]
        apply ih pre1 hout
        simp only [Bool.and_eq_true, decide_eq_true_eq] at hc
        exact hc.1
      · rw [if_neg hc]
        exact ⟨pre1, hout⟩

/-- The loop of `Clean` on a rooted path never removes the leading slash. -/
theorem cleanLoop_rooted (fuel : Nat) :
    ∀ (rest out : List Char), (∃ pre : List Char, out = pre ++ ['/']) →
      ∃ pre2 : List Char, cleanLoop true fuel rest out 1 = pre2 ++ ['/'] := by
  induction fuel with
  | zero => intro rest out h; simpa [cleanLoop] using h
  | succ fuel ih =>
    intro rest out h
    cases rest with
    | nil => simpa [cleanLoop] using h
    | cons c rest1 =>
      unfold cleanLoop
      simp only
      split
      · exact ih _ _ h
      · split
        · exact ih _ _ h
        · split
          · split
            · rename_i hgt
              obtain ⟨pre, hpre⟩ := h
              exact ih _ _ (cleanBacktrack_rooted out pre hpre hgt)
            · simp only [Bool.not_true, Bool.false_eq_true, if_false]
              exact ih _ _ h
          · apply ih
            obtain ⟨pre, hpre⟩ := h
            split
            · exact ⟨((c :: rest1).takeWhile (fun x => !IsPathSeparator x)).reverse ++ '/' :: pre,
                by simp [hpre]⟩
            · exact ⟨((c :: rest1).takeWhile (fun x => !IsPathSeparator x)).reverse ++ pre,
                by simp [hpre]⟩

/-- The function `Clean` maps a path starting with a slash to one starting
with a slash. -/
theorem cleanChars_rooted (t : List Char) :
    ∃ u : List Char, cleanChars ('/' :: t) = '/' :: u := by
  obtain ⟨pre, hpre⟩ := cleanLoop_rooted ('/' :: t).length t ['/'] ⟨[], rfl⟩
  have hsep : IsPathSeparator '/' = true := by decide
  simp only [cleanChars, hsep, if_true, List.tail_cons, hpre]
  refine ⟨pre.reverse, ?_⟩
  simp

/-- Joining onto an absolute first element gives an absolute path. -/
theorem IsAbs_Join (cwd ctx : String) (hcwd : IsAbs cwd = true) :
    IsAbs (Join [cwd, ctx]) = true := by
  obtain ⟨cd⟩ := cwd
  cases cd with
  | nil => simp [IsAbs] at hcwd
  | cons c t =>
    have hc : c = '/' := by simpa [IsAbs] using hcwd
    subst hc
    have hne : ((⟨'/' :: t⟩ : String) != "") = true := by
      simp only [bne_iff_ne, ne_eq]
      intro h
      have := congrArg String.data h
      simp at this
    obtain ⟨u, hu⟩ := cleanChars_rooted (t ++ ['/'] ++ ctx.data)
    simp only [Join, hne, if_true, stringsJoin, Clean, String.data_append, IsAbs]
    have : ("/" : String).data = ['/'] := rfl
    simp only [this, List.cons_append, List.append_assoc] at hu ⊢
    rw [hu]
    simp

/-- One more unit of fuel does not change the loop of `Clean` once the fuel
covers the unread input: every iteration consumes at least one byte. -/
theorem cleanLoop_fuel_succ (rooted : Bool) (fuel : Nat) :
    ∀ (rest out : List Char) (dotdot : Nat), rest.length ≤ fuel →
      cleanLoop rooted (fuel + 1) rest out dotdot = cleanLoop rooted fuel rest out dotdot := by
  induction fuel with
  | zero =>
    intro rest out dotdot hl
    have : rest = [] := List.length_eq_zero.mp (Nat.le_zero.mp hl)
    subst this
    simp [cleanLoop]
  | succ fuel ih =>
    intro rest out dotdot hl
    cases rest with
    | nil => simp [cleanLoop]
    | cons c rest1 =>
      have h1 : rest1.length ≤ fuel := by simpa using hl
      have h2 : rest1.tail.length ≤ fuel := by
        have := List.length_tail rest1
        omega
      rw [cleanLoop.eq_def rooted (fuel + 1 + 1), cleanLoop.eq_def rooted (fuel + 1)]
      simp only
      split
      · exact ih _ _ _ h1
      · rename_i hsep
        split
        · exact ih _ _ _ h1
        · split
          · split
            · exact ih _ _ _ h2
            · split
              · exact ih _ _ _ h2
              · exact ih _ _ _ h2
          · apply ih
            have hc : (!IsPathSeparator c) = true := by simpa using hsep
            have hd : (c :: rest1).dropWhile (fun x => !IsPathSeparator x) =
                rest1.dropWhile (fun x => !IsPathSeparator x) := by
              simp [List.dropWhile_cons, hc]
            rw [hd]
            exact Nat.le_trans (List.dropWhile_sublist _).length_le h1

/-- The loop of `Clean` gives the same result for every amount of fuel that
covers the unread input; `Clean` supplies `len(path)`, so it never stops
early. -/
theorem cleanLoop_fuel_ge (rooted : Bool) (rest out : List Char) (dotdot : Nat) :
    ∀ fuel : Nat, rest.length ≤ fuel →
      cleanLoop rooted fuel rest out dotdot = cleanLoop rooted rest.length rest out dotdot := by
  intro fuel hl
  induction fuel with
  | zero =>
    have : rest.length = 0 := Nat.le_zero.mp hl
    rw [this]
  | succ fuel ih =>
    rcases Nat.lt_or_ge rest.length (fuel + 1) with hlt | hge
    · rw [cleanLoop_fuel_succ rooted fuel rest out dotdot (by omega)]
      exact ih (by omega)
    · have : rest.length = fuel + 1 := by omega
      rw [this]

/-! ## `ImageBuildInfo` -/

/-- The result of `ImageBuildInfo` on a receiver pointing to `d`, in one
equation: a new object at the first free address. -/
theorem ImageBuildInfo_eq (rt : Runtime) (h : Heap) (p : Addr) (d : BuildDefinition)
    (name cwd : String) (hp : h.defs[p]? = some d) :
    ImageBuildInfo rt h (some p) name cwd =
      some ({ defs := h.defs ++
                [{ Context := if IsAbs d.Context = true then d.Context else Join [cwd, d.Context],
                   Buildfile := d.Buildfile,
                   Args := d.Args,
                   Tags := if name = "" then d.Tags else (goAppend rt h.mem d.Tags name).2 }],
              mem := if name = "" then h.mem else (goAppend rt h.mem d.Tags name).1 },
            some h.defs.length) := by
  simp only [ImageBuildInfo, hp]
  by_cases ha : IsAbs d.Context = true <;> by_cases hn : name = "" <;> simp [ha, hn]

/-- Reading the freshly allocated object. -/
theorem getElem?_append_new (l : List BuildDefinition) (r : BuildDefinition) :
    (l ++ [r])[l.length]? = some r := by
  rw [List.getElem?_append_right (Nat.le_refl _)]
  simp

/-- Claim C1: the tags of the resolved definition are the tags of the input
followed by `name` when `name` is non-empty (also when `name` already occurs
among them), and exactly the tags of the input when `name` is empty. -/
theorem ImageBuildInfo_tags (rt : Runtime) (h : Heap) (p : Addr) (d : BuildDefinition)
    (name cwd : String) (hp : h.defs[p]? = some d) (hv : d.Tags.valid h.mem = true) :
    ∃ (h2 : Heap) (q : Addr) (r : BuildDefinition),
      ImageBuildInfo rt h (some p) name cwd = some (h2, some q) ∧ h2.defs[q]? = some r ∧
      r.Tags.read h2.mem =
        if name = "" then d.Tags.read h.mem else d.Tags.read h.mem ++ [name] := by
  refine ⟨_, _, _, ImageBuildInfo_eq rt h p d name cwd hp, getElem?_append_new _ _, ?_⟩
  by_cases hn : name = ""
  · simp [hn]
  · simp only [hn, if_false]
    exact goAppend_read rt h.mem d.Tags name hv

/-- Claim C1 at a concrete input: tags `["v1"]`, name `"v1"`. -/
theorem ImageBuildInfo_tags_witness :
    exHeap.defs[0]? = some exDef ∧ exDef.Tags.valid exHeap.mem = true ∧
    ∃ (h2 : Heap) (q : Addr) (r : BuildDefinition),
      ImageBuildInfo exRuntime exHeap (some 0) "v1" "/work" = some (h2, some q) ∧
      h2.defs[q]? = some r ∧
      r.Tags.read h2.mem =
        if "v1" = "" then exDef.Tags.read exHeap.mem else exDef.Tags.read exHeap.mem ++ ["v1"] :=
  ⟨by decide, by decide,
   ImageBuildInfo_tags exRuntime exHeap 0 exDef "v1" "/work" (by decide) (by decide)⟩

/-- Claim C2: a relative context is replaced by `filepath.Join(cwd, ctx)`
(for every `cwd`, in particular every absolute one). -/
theorem ImageBuildInfo_context_relative (rt : Runtime) (h : Heap) (p : Addr)
    (d : BuildDefinition) (name cwd : String) (hp : h.defs[p]? = some d)
    (hrel : IsAbs d.Context = false) :
    ∃ (h2 : Heap) (q : Addr) (r : BuildDefinition),
      ImageBuildInfo rt h (some p) name cwd = some (h2, some q) ∧ h2.defs[q]? = some r ∧
      r.Context = Join [cwd, d.Context] := by
  refine ⟨_, _, _, ImageBuildInfo_eq rt h p d name cwd hp, getElem?_append_new _ _, ?_⟩
  simp [hrel]

/-- Claim C2 at a concrete input: context `./src`, cwd `/work`. -/
theorem ImageBuildInfo_context_relative_witness :
    exHeap.defs[0]? = some exDef ∧ IsAbs exDef.Context = false ∧
    ∃ (h2 : Heap) (q : Addr) (r : BuildDefinition),
      ImageBuildInfo exRuntime exHeap (some 0) "img" "/work" = some (h2, some q) ∧
      h2.defs[q]? = some r ∧ r.Context = Join ["/work", exDef.Context] :=
  ⟨by decide, by decide,
   ImageBuildInfo_context_relative exRuntime exHeap 0 exDef "img" "/work" (by decide) (by decide)⟩

/-- Claim C3: an absolute context is returned exactly as it is, neither joined
with `cwd` nor normalised. -/
theorem ImageBuildInfo_context_absolute (rt : Runtime) (h : Heap) (p : Addr)
    (d : BuildDefinition) (name cwd : String) (hp : h.defs[p]? = some d)
    (habs : IsAbs d.Context = true) :
    ∃ (h2 : Heap) (q : Addr) (r : BuildDefinition),
      ImageBuildInfo rt h (some p) name cwd = some (h2, some q) ∧ h2.defs[q]? = some r ∧
      r.Context = d.Context := by
  refine ⟨_, _, _, ImageBuildInfo_eq rt h p d name cwd hp, getElem?_append_new _ _, ?_⟩
  simp [habs]

/-- Claim C3 at a concrete input: the context `/opt//app/.` is not in
normal form and comes back unchanged. -/
theorem ImageBuildInfo_context_absolute_witness :
    exHeap.defs[1]? = some exDefAbs ∧ IsAbs exDefAbs.Context = true ∧
    ∃ (h2 : Heap) (q : Addr) (r : BuildDefinition),
      ImageBuildInfo exRuntime exHeap (some 1) "img" "/work" = some (h2, some q) ∧
      h2.defs[q]? = some r ∧ r.Context = exDefAbs.Context :=
  ⟨by decide, by decide,
   ImageBuildInfo_context_absolute exRuntime exHeap 1 exDefAbs "img" "/work"
     (by decide) (by decide)⟩

/-- Claim C4 as stated fails: with the relative context `./src` and the
relative working directory `builds`, the resolved context is `builds/src`,
which is not absolute. -/
theorem ImageBuildInfo_context_relative_cwd :
    ∃ (h2 : Heap) (q : Addr) (r : BuildDefinition),
      ImageBuildInfo exRuntime exHeap (some 0) "img" "builds" = some (h2, some q) ∧
      h2.defs[q]? = some r ∧ r.Context = "builds/src" ∧ IsAbs r.Context = false :=
  ⟨_, _, _, ImageBuildInfo_eq exRuntime exHeap 0 exDef "img" "builds" (by decide),
   getElem?_append_new _ _, by decide, by decide⟩

/-- Claim C4, amended: when `cwd` is an absolute path, the context of the
resolved definition is an absolute path. -/
theorem ImageBuildInfo_context_isAbs (rt : Runtime) (h : Heap) (p : Addr)
    (d : BuildDefinition) (name cwd : String) (hp : h.defs[p]? = some d)
    (hcwd : IsAbs cwd = true) :
    ∃ (h2 : Heap) (q : Addr) (r : BuildDefinition),
      ImageBuildInfo rt h (some p) name cwd = some (h2, some q) ∧ h2.defs[q]? = some r ∧
      IsAbs r.Context = true := by
  refine ⟨_, _, _, ImageBuildInfo_eq rt h p d name cwd hp, getElem?_append_new _ _, ?_⟩
  by_cases ha : IsAbs d.Context = true
  · simp [ha]
  · simp only [ha, if_false]
    exact IsAbs_Join cwd d.Context hcwd

/-- Claim C4, amended, at a concrete input: context `./src`, cwd `/work`. -/
theorem ImageBuildInfo_context_isAbs_witness :
    exHeap.defs[0]? = some exDef ∧ IsAbs "/work" = true ∧
    ∃ (h2 : Heap) (q : Addr) (r : BuildDefinition),
      ImageBuildInfo exRuntime exHeap (some 0) "" "/work" = some (h2, some q) ∧
      h2.defs[q]? = some r ∧ IsAbs r.Context = true :=
  ⟨by decide, by decide,
   ImageBuildInfo_context_isAbs exRuntime exHeap 0 exDef "" "/work" (by decide) (by decide)⟩

/-- Claim C5: `ImageBuildInfo` always returns, and its result is nil exactly
when the receiver is nil; a non-nil result points to an allocated object. -/
theorem ImageBuildInfo_nil_iff (rt : Runtime) (h : Heap) (b : Option Addr)
    (name cwd : String) (hb : ∀ p, b = some p → p < h.defs.length) :
    ∃ (h2 : Heap) (r : Option Addr),
      ImageBuildInfo rt h b name cwd = some (h2, r) ∧ (r = none ↔ b = none) ∧
      (b = none → h2 = h) ∧ (∀ q, r = some q → q < h2.defs.length) := by
  cases b with
  | none =>
    refine ⟨h, none, by simp [ImageBuildInfo], by simp, fun _ => rfl, ?_⟩
    intro q hq; cases hq
  | some p =>
    have hlt := hb p rfl
    have hp : h.defs[p]? = some h.defs[p] := List.getElem?_eq_getElem hlt
    refine ⟨_, _, ImageBuildInfo_eq rt h p _ name cwd hp, by simp, by simp, ?_⟩
    intro q hq
    cases hq
    simp

/-- Claim C5 at a concrete input: a non-nil receiver gives a non-nil result. -/
theorem ImageBuildInfo_nil_iff_witness :
    (∀ p, some 0 = some p → p < exHeap.defs.length) ∧
    ∃ (h2 : Heap) (r : Option Addr),
      ImageBuildInfo exRuntime exHeap (some 0) "img" "/work" = some (h2, r) ∧
      (r = none ↔ some 0 = none) ∧ (some 0 = none → h2 = exHeap) ∧
      (∀ q, r = some q → q < h2.defs.length) :=
  ⟨by intro p hp; cases hp; decide,
   ImageBuildInfo_nil_iff exRuntime exHeap (some 0) "img" "/work"
     (by intro p hp; cases hp; decide)⟩

/-- Claim C6: `ImageBuildInfo` does not mutate its input: after the call the
receiver still points to the same value (same `Context`, same `Tags` header,
so the same length) and its tags show the same elements, while the result is a
different object. -/
theorem ImageBuildInfo_input_unchanged (rt : Runtime) (h : Heap) (p : Addr)
    (d : BuildDefinition) (name cwd : String) (hp : h.defs[p]? = some d)
    (hv : d.Tags.valid h.mem = true) :
    ∃ (h2 : Heap) (q : Addr),
      ImageBuildInfo rt h (some p) name cwd = some (h2, some q) ∧ q ≠ p ∧
      h2.defs[p]? = some d ∧ d.Tags.read h2.mem = d.Tags.read h.mem := by
  have hlt : p < h.defs.length := by
    rcases Nat.lt_or_ge p h.defs.length with hl | hl
    · exact hl
    · rw [List.getElem?_eq_none hl] at hp; cases hp
  refine ⟨_, _, ImageBuildInfo_eq rt h p d name cwd hp, Nat.ne_of_gt hlt, ?_, ?_⟩
  · simp only
    rw [List.getElem?_append_left hlt]
    exact hp
  · by_cases hn : name = ""
    · simp [hn]
    · simp only [hn, if_false]
      exact goAppend_frame rt h.mem d.Tags name hv

/-- Claim C6 at a concrete input where both the context is rewritten and a
tag is appended in place into the spare slot of the shared backing array. -/
theorem ImageBuildInfo_input_unchanged_witness :
    exHeap.defs[0]? = some exDef ∧ exDef.Tags.valid exHeap.mem = true ∧
    ∃ (h2 : Heap) (q : Addr),
      ImageBuildInfo exRuntime exHeap (some 0) "img" "/work" = some (h2, some q) ∧ q ≠ 0 ∧
      h2.defs[0]? = some exDef ∧ exDef.Tags.read h2.mem = exDef.Tags.read exHeap.mem :=
  ⟨by decide, by decide,
   ImageBuildInfo_input_unchanged exRuntime exHeap 0 exDef "img" "/work" (by decide) (by decide)⟩

/-! ## `UnmarshalYAML` -/

/-- Claim C7: a scalar node that decodes to the string `s` makes
`UnmarshalYAML` return no error and store `BuildDefinition{Context: s}` in the
receiver (empty `Buildfile`, nil `Args`, nil `Tags`), whatever it held before;
nothing else in memory changes. -/
theorem UnmarshalYAML_scalar {Err : Type} (dec : Decoder Err) (h : Heap) (b : Addr) (n : Node)
    (s : String) (hb : b < h.defs.length) (hk : n.Kind = ScalarNode)
    (hd : dec.decodeString n = (s, none)) :
    ∃ (h2 : Heap) (r : BuildDefinition),
      UnmarshalYAML dec h b n = some (h2, none) ∧ h2.defs[b]? = some r ∧
      r = { Context := s, Buildfile := "", Args := none, Tags := Slice.nil } ∧
      readArgs h2.mem r.Args = [] ∧ r.Tags.read h2.mem = [] ∧ h2.mem = h.mem := by
  refine ⟨{ defs := h.defs.set b ⟨s, "", none, Slice.nil⟩, mem := h.mem }, _, ?_, ?_,
          rfl, rfl, rfl, rfl⟩
  · simp [UnmarshalYAML, hb, hk, hd]
  · simp [List.getElem?_set_eq_of_lt, hb]

/-- Claim C7 at a concrete input: the scalar `./src` decoded over `exDef`. -/
theorem UnmarshalYAML_scalar_witness :
    0 < exHeap.defs.length ∧ (⟨ScalarNode, 0⟩ : Node).Kind = ScalarNode ∧
    exDecoder.decodeString ⟨ScalarNode, 0⟩ = ("./src", none) ∧
    ∃ (h2 : Heap) (r : BuildDefinition),
      UnmarshalYAML exDecoder exHeap 0 ⟨ScalarNode, 0⟩ = some (h2, none) ∧
      h2.defs[0]? = some r ∧
      r = { Context := "./src", Buildfile := "", Args := none, Tags := Slice.nil } ∧
      readArgs h2.mem r.Args = [] ∧ r.Tags.read h2.mem = [] ∧ h2.mem = exHeap.mem :=
  ⟨by decide, rfl, rfl,
   UnmarshalYAML_scalar exDecoder exHeap 0 ⟨ScalarNode, 0⟩ "./src" (by decide) rfl rfl⟩

/-- Claim C8: on a non-scalar node whose structured decode fails with `e`,
`UnmarshalYAML` returns exactly `e` and writes nothing: every
`BuildDefinition` object is as before, so the receiver holds what it held, and
the container storage is exactly what the decoder left (`m1`), so the
receiver's tags and map entries read there as the decoder left them; when the
decoder did not touch them they read as before the call. -/
theorem UnmarshalYAML_struct_error {Err : Type} (dec : Decoder Err) (h : Heap) (b : Addr)
    (n : Node) (d : BuildDefinition) (m1 : Mem) (v : yamlBuildOptions) (e : Err)
    (hb : h.defs[b]? = some d) (hk : n.Kind ≠ ScalarNode)
    (hd : dec.decodeStruct n h.mem = (m1, v, some e)) :
    ∃ h2 : Heap,
      UnmarshalYAML dec h b n = some (h2, some e) ∧ h2.defs = h.defs ∧
      h2.defs[b]? = some d ∧ h2.mem = m1 ∧
      d.Tags.read h2.mem = d.Tags.read m1 ∧ readArgs h2.mem d.Args = readArgs m1 d.Args ∧
      (d.Tags.read m1 = d.Tags.read h.mem → d.Tags.read h2.mem = d.Tags.read h.mem) ∧
      (readArgs m1 d.Args = readArgs h.mem d.Args →
        readArgs h2.mem d.Args = readArgs h.mem d.Args) ∧
      (m1 = h.mem → h2 = h) := by
  have hlt : b < h.defs.length := by
    rcases Nat.lt_or_ge b h.defs.length with hl | hl
    · exact hl
    · rw [List.getElem?_eq_none hl] at hb; cases hb
  refine ⟨Heap.mk h.defs m1, ?_, rfl, hb, rfl, rfl, rfl, fun ht => ht, fun ha => ha, ?_⟩
  · simp [UnmarshalYAML, hlt, hk, hd]
  · intro hm
    rw [hm]

/-- Claim C8 at a concrete input: a mapping whose `tags` is a scalar, decoded
over `exDef`; the decoder allocates nothing, and the heap after the call is
the heap before it. -/
theorem UnmarshalYAML_struct_error_witness :
    exHeap.defs[0]? = some exDef ∧ (⟨MappingNode, 2⟩ : Node).Kind ≠ ScalarNode ∧
    exDecoder.decodeStruct ⟨MappingNode, 2⟩ exHeap.mem =
      (exHeap.mem, { Context := "./app", Buildfile := "", Args := none, Tags := Slice.nil },
       some "yaml: cannot unmarshal !!str into []string") ∧
    exDef.Tags.read exHeap.mem = ["v1"] ∧
    readArgs exHeap.mem exDef.Args = [("K", some "v"), ("E", none)] ∧
    ∃ h2 : Heap,
      UnmarshalYAML exDecoder exHeap 0 ⟨MappingNode, 2⟩ =
        some (h2, some "yaml: cannot unmarshal !!str into []string") ∧
      h2.defs = exHeap.defs ∧ h2.defs[0]? = some exDef ∧ h2.mem = exHeap.mem ∧
      exDef.Tags.read h2.mem = exDef.Tags.read exHeap.mem ∧
      readArgs h2.mem exDef.Args = readArgs exHeap.mem exDef.Args ∧
      (exDef.Tags.read exHeap.mem = exDef.Tags.read exHeap.mem →
        exDef.Tags.read h2.mem = exDef.Tags.read exHeap.mem) ∧
      (readArgs exHeap.mem exDef.Args = readArgs exHeap.mem exDef.Args →
        readArgs h2.mem exDef.Args = readArgs exHeap.mem exDef.Args) ∧
      (exHeap.mem = exHeap.mem → h2 = exHeap) :=
  ⟨by decide, by decide, rfl, by decide, by decide,
   UnmarshalYAML_struct_error exDecoder exHeap 0 ⟨MappingNode, 2⟩ exDef exHeap.mem
     { Context := "./app", Buildfile := "", Args := none, Tags := Slice.nil }
     "yaml: cannot unmarshal !!str into []string" (by decide) (by decide) rfl⟩

/-- Claim C9: on a non-scalar node whose structured decode succeeds with the
record `v`, `UnmarshalYAML` returns no error and the receiver holds exactly
`v` (`Context`, `Buildfile`, `Args`, `Tags`), read in the memory the decoder
left; nothing of its previous contents is kept. -/
theorem UnmarshalYAML_struct_ok {Err : Type} (dec : Decoder Err) (h : Heap) (b : Addr)
    (n : Node) (m1 : Mem) (v : yamlBuildOptions)
    (hb : b < h.defs.length) (hk : n.Kind ≠ ScalarNode)
    (hd : dec.decodeStruct n h.mem = (m1, v, none)) :
    ∃ (h2 : Heap) (r : BuildDefinition),
      UnmarshalYAML dec h b n = some (h2, none) ∧ h2.defs[b]? = some r ∧ h2.mem = m1 ∧
      r.Context = v.Context ∧ r.Buildfile = v.Buildfile ∧ r.Args = v.Args ∧ r.Tags = v.Tags ∧
      readArgs h2.mem r.Args = readArgs m1 v.Args ∧ r.Tags.read h2.mem = v.Tags.read m1 := by
  refine ⟨{ defs := h.defs.set b v, mem := m1 }, v, ?_, ?_, rfl, rfl, rfl, rfl, rfl, rfl, rfl⟩
  · simp [UnmarshalYAML, hb, hk, hd]
  · simp [List.getElem?_set_eq_of_lt, hb]

/-- Claim C9 at a concrete input: the mapping
`{context: ./app, buildfile: Dockerfile.dev, tags: [v1, v2]}`. -/
theorem UnmarshalYAML_struct_ok_witness :
    0 < exHeap.defs.length ∧ (⟨MappingNode, 1⟩ : Node).Kind ≠ ScalarNode ∧
    ∃ (h2 : Heap) (r : BuildDefinition),
      UnmarshalYAML exDecoder exHeap 0 ⟨MappingNode, 1⟩ = some (h2, none) ∧
      h2.defs[0]? = some r ∧
      h2.mem = (exDecoder.decodeStruct ⟨MappingNode, 1⟩ exHeap.mem).1 ∧
      r.Context = "./app" ∧ r.Buildfile = "Dockerfile.dev" ∧ r.Args = none ∧
      r.Tags = { arr := some 1, off := 0, len := 2, cap := 2 } ∧
      readArgs h2.mem r.Args = [] ∧ r.Tags.read h2.mem = ["v1", "v2"] :=
  ⟨by decide, by decide,
   UnmarshalYAML_struct_ok exDecoder exHeap 0 ⟨MappingNode, 1⟩
     (exDecoder.decodeStruct ⟨MappingNode, 1⟩ exHeap.mem).1
     { Context := "./app", Buildfile := "Dockerfile.dev", Args := none,
       Tags := { arr := some 1, off := 0, len := 2, cap := 2 } }
     (by decide) (by decide) rfl⟩

/-! ## Decoding, then resolving -/

/-- Claim C10: decoding a scalar node holding the relative path `s` and then
resolving the receiver with a non-empty `name` and a working directory `cwd`
(any, in particular an absolute one) gives
`{Context: filepath.Join(cwd, s), Buildfile: "", Args: empty, Tags: [name]}`. -/
theorem UnmarshalYAML_then_ImageBuildInfo {Err : Type} (dec : Decoder Err) (rt : Runtime)
    (h : Heap) (b : Addr) (n : Node) (s name cwd : String)
    (hb : b < h.defs.length) (hk : n.Kind = ScalarNode)
    (hd : dec.decodeString n = (s, none)) (hrel : IsAbs s = false) (hname : name ≠ "") :
    ∃ (h1 h2 : Heap) (q : Addr) (r : BuildDefinition),
      UnmarshalYAML dec h b n = some (h1, none) ∧
      ImageBuildInfo rt h1 (some b) name cwd = some (h2, some q) ∧ h2.defs[q]? = some r ∧
      r.Context = Join [cwd, s] ∧ r.Buildfile = "" ∧ readArgs h2.mem r.Args = [] ∧
      r.Tags.read h2.mem = [name] := by
  have hget : (h.defs.set b
      { Context := s, Buildfile := "", Args := none, Tags := Slice.nil })[b]? =
      some { Context := s, Buildfile := "", Args := none, Tags := Slice.nil } := by
    simp [List.getElem?_set_eq_of_lt, hb]
  have hvalid : Slice.nil.valid h.mem = true := rfl
  have hread := goAppend_read rt h.mem Slice.nil name hvalid
  refine ⟨{ defs := h.defs.set b ⟨s, "", none, Slice.nil⟩, mem := h.mem }, _, _, _, ?_, ImageBuildInfo_eq rt _ b _ name cwd hget, getElem?_append_new _ _, ?_, rfl, rfl, ?_⟩
  · simp [UnmarshalYAML, hb, hk, hd]
  · simp [hrel]
  · simp only [hname, if_false]
    rw [hread]
    rfl

/-- Claim C10 at the concrete input of the specification: `./src` resolved
with name `myimg` and cwd `/work` gives context `/work/src` and tags
`[myimg]`. -/
theorem UnmarshalYAML_then_ImageBuildInfo_witness :
    0 < exHeap.defs.length ∧ exDecoder.decodeString ⟨ScalarNode, 0⟩ = ("./src", none) ∧
    IsAbs "./src" = false ∧ "myimg" ≠ "" ∧ Join ["/work", "./src"] = "/work/src" ∧
    ∃ (h1 h2 : Heap) (q : Addr) (r : BuildDefinition),
      UnmarshalYAML exDecoder exHeap 0 ⟨ScalarNode, 0⟩ = some (h1, none) ∧
      ImageBuildInfo exRuntime h1 (some 0) "myimg" "/work" = some (h2, some q) ∧
      h2.defs[q]? = some r ∧
      r.Context = Join ["/work", "./src"] ∧ r.Buildfile = "" ∧ readArgs h2.mem r.Args = [] ∧
      r.Tags.read h2.mem = ["myimg"] :=
  ⟨by decide, rfl, by decide, by decide, by decide,
   UnmarshalYAML_then_ImageBuildInfo exDecoder exRuntime exHeap 0 ⟨ScalarNode, 0⟩
     "./src" "myimg" "/work" (by decide) rfl rfl (by decide) (by decide)⟩

/-! ## Aliasing, frame and idempotence of `ImageBuildInfo` -/

/-- The function `append` never touches the map storage. -/
theorem goAppend_maps (rt : Runtime) (m : Mem) (s : Slice) (x : String) :
    (goAppend rt m s x).1.maps = m.maps := by
  unfold goAppend
  cases s.arr with
  | none => rfl
  | some a =>
    by_cases hc : s.len < s.cap
    · simp [hc]
    · simp [hc]

/-- Claim C11 fails on the code: `exDef` has tags `["v1"]` in a backing array
with one spare slot.  Resolving it with name `a` gives a result whose tags read
`["v1", "a"]`; resolving the same definition again with name `b` writes `b`
into the same slot, and the first result's tags then read `["v1", "b"]`. -/
theorem ImageBuildInfo_tags_overwritten :
    ∃ (h1 h2 : Heap) (q1 q2 : Addr) (r1 : BuildDefinition),
      ImageBuildInfo exRuntime exHeap (some 0) "a" "/work" = some (h1, some q1) ∧
      h1.defs[q1]? = some r1 ∧ r1.Tags.read h1.mem = ["v1", "a"] ∧
      ImageBuildInfo exRuntime h1 (some 0) "b" "/work" = some (h2, some q2) ∧
      h2.defs[q1]? = some r1 ∧ r1.Tags.read h2.mem = ["v1", "b"] ∧
      r1.Tags.read h2.mem ≠ exDef.Tags.read exHeap.mem ++ ["a"] :=
  ⟨{ defs := [exDef, exDefAbs,
        { Context := "/work/src", Buildfile := "Dockerfile", Args := some 0,
          Tags := { arr := some 0, off := 0, len := 2, cap := 2 } }],
     mem := { arrays := [["v1", "a"]], maps := [[("K", some "v"), ("E", none)]] } },
   { defs := [exDef, exDefAbs,
        { Context := "/work/src", Buildfile := "Dockerfile", Args := some 0,
          Tags := { arr := some 0, off := 0, len := 2, cap := 2 } },
        { Context := "/work/src", Buildfile := "Dockerfile", Args := some 0,
          Tags := { arr := some 0, off := 0, len := 2, cap := 2 } }],
     mem := { arrays := [["v1", "b"]], maps := [[("K", some "v"), ("E", none)]] } },
   2, 3,
   { Context := "/work/src", Buildfile := "Dockerfile", Args := some 0,
     Tags := { arr := some 0, off := 0, len := 2, cap := 2 } },
   by decide, by decide, by decide, by decide, by decide, by decide, by decide⟩

/-- Claim C13: `ImageBuildInfo` changes only `Context` and `Tags`: the result
has the input's `Buildfile` and the input's `Args` (the same map, showing the
same keys with the same present-or-absent values). -/
theorem ImageBuildInfo_buildfile_args (rt : Runtime) (h : Heap) (p : Addr)
    (d : BuildDefinition) (name cwd : String) (hp : h.defs[p]? = some d) :
    ∃ (h2 : Heap) (q : Addr) (r : BuildDefinition),
      ImageBuildInfo rt h (some p) name cwd = some (h2, some q) ∧ h2.defs[q]? = some r ∧
      r.Buildfile = d.Buildfile ∧ r.Args = d.Args ∧
      readArgs h2.mem r.Args = readArgs h.mem d.Args := by
  refine ⟨_, _, _, ImageBuildInfo_eq rt h p d name cwd hp, getElem?_append_new _ _, rfl, rfl, ?_⟩
  by_cases hn : name = ""
  · simp [hn]
  · simp only [hn, if_false, readArgs, goAppend_maps]

/-- Claim C13 at a concrete input: the map holds `K` with a value and `E`
with an absent value, and both come back as they were. -/
theorem ImageBuildInfo_buildfile_args_witness :
    exHeap.defs[0]? = some exDef ∧ readArgs exHeap.mem exDef.Args = [("K", some "v"), ("E", none)] ∧
    ∃ (h2 : Heap) (q : Addr) (r : BuildDefinition),
      ImageBuildInfo exRuntime exHeap (some 0) "img" "/work" = some (h2, some q) ∧
      h2.defs[q]? = some r ∧ r.Buildfile = exDef.Buildfile ∧ r.Args = exDef.Args ∧
      readArgs h2.mem r.Args = readArgs exHeap.mem exDef.Args :=
  ⟨by decide, by decide,
   ImageBuildInfo_buildfile_args exRuntime exHeap 0 exDef "img" "/work" (by decide)⟩

/-- Claim C14: with the empty name and an absolute `cwd`, resolving the result
once more (with any working directory `cwd2`) gives a value equal to the first
result in every field, in unchanged container storage. -/
theorem ImageBuildInfo_idempotent (rt : Runtime) (h : Heap) (p : Addr)
    (d : BuildDefinition) (cwd cwd2 : String) (hp : h.defs[p]? = some d)
    (hcwd : IsAbs cwd = true) :
    ∃ (h1 h2 : Heap) (q1 q2 : Addr) (r1 r2 : BuildDefinition),
      ImageBuildInfo rt h (some p) "" cwd = some (h1, some q1) ∧ h1.defs[q1]? = some r1 ∧
      ImageBuildInfo rt h1 (some q1) "" cwd2 = some (h2, some q2) ∧ h2.defs[q2]? = some r2 ∧
      r2 = r1 ∧ h2.mem = h1.mem ∧ r2.Tags.read h2.mem = r1.Tags.read h1.mem := by
  have habs : IsAbs (if IsAbs d.Context = true then d.Context else Join [cwd, d.Context]) = true := by
    by_cases ha : IsAbs d.Context = true
    · simp [ha]
    · simp only [ha, if_false]
      exact IsAbs_Join cwd d.Context hcwd
  generalize hr1 : (if IsAbs d.Context = true then d.Context else Join [cwd, d.Context]) = c1
    at habs
  have h1eq := ImageBuildInfo_eq rt h p d "" cwd hp
  have h2eq := ImageBuildInfo_eq rt (Heap.mk (h.defs ++ [⟨c1, d.Buildfile, d.Args, d.Tags⟩]) h.mem)
    h.defs.length ⟨c1, d.Buildfile, d.Args, d.Tags⟩ "" cwd2 (getElem?_append_new h.defs _)
  simp only [if_true, hr1] at h1eq
  simp only [if_true, habs] at h2eq
  exact ⟨_, _, _, _, _, _, h1eq, getElem?_append_new _ _, h2eq, getElem?_append_new _ _,
    rfl, rfl, rfl⟩

/-- Claim C14 at a concrete input: `exDef` resolved under `/work`, then again
under `/elsewhere`. -/
theorem ImageBuildInfo_idempotent_witness :
    exHeap.defs[0]? = some exDef ∧ IsAbs "/work" = true ∧
    ∃ (h1 h2 : Heap) (q1 q2 : Addr) (r1 r2 : BuildDefinition),
      ImageBuildInfo exRuntime exHeap (some 0) "" "/work" = some (h1, some q1) ∧
      h1.defs[q1]? = some r1 ∧
      ImageBuildInfo exRuntime h1 (some q1) "" "/elsewhere" = some (h2, some q2) ∧
      h2.defs[q2]? = some r2 ∧
      r2 = r1 ∧ h2.mem = h1.mem ∧ r2.Tags.read h2.mem = r1.Tags.read h1.mem :=
  ⟨by decide, by decide,
   ImageBuildInfo_idempotent exRuntime exHeap 0 exDef "/work" "/elsewhere" (by decide) (by decide)⟩

/-! ## The scalar path of `UnmarshalYAML` on a failing decode -/

/-- Claim C16: on a scalar node `UnmarshalYAML` returns exactly what the
scalar decode returned (nil or the error) and always overwrites the receiver
with `BuildDefinition{Context: s}` for the string `s` the decode left, so with
empty `Buildfile`, nil `Args` and nil `Tags`, whether or not the decode
succeeded. -/
theorem UnmarshalYAML_scalar_always {Err : Type} (dec : Decoder Err) (h : Heap) (b : Addr)
    (n : Node) (hb : b < h.defs.length) (hk : n.Kind = ScalarNode) :
    ∃ (h2 : Heap) (r : BuildDefinition),
      UnmarshalYAML dec h b n = some (h2, (dec.decodeString n).2) ∧ h2.defs[b]? = some r ∧
      r = { Context := (dec.decodeString n).1, Buildfile := "", Args := none,
            Tags := Slice.nil } ∧
      readArgs h2.mem r.Args = [] ∧ r.Tags.read h2.mem = [] := by
  refine ⟨{ defs := h.defs.set b ⟨(dec.decodeString n).1, "", none, Slice.nil⟩, mem := h.mem },
          _, ?_, ?_, rfl, rfl, rfl⟩
  · simp [UnmarshalYAML, hb, hk]
  · simp [List.getElem?_set_eq_of_lt, hb]

/-- Claim C16 at a concrete input: a scalar node whose decode fails; the
receiver held `exDef` and is overwritten although an error is returned. -/
theorem UnmarshalYAML_scalar_always_witness :
    0 < exHeap.defs.length ∧ (⟨ScalarNode, 7⟩ : Node).Kind = ScalarNode ∧
    exDecoder.decodeString ⟨ScalarNode, 7⟩ = ("", some "yaml: cannot unmarshal into string") ∧
    exHeap.defs[0]? = some exDef ∧
    ∃ (h2 : Heap) (r : BuildDefinition),
      UnmarshalYAML exDecoder exHeap 0 ⟨ScalarNode, 7⟩ =
        some (h2, (exDecoder.decodeString ⟨ScalarNode, 7⟩).2) ∧
      h2.defs[0]? = some r ∧
      r = { Context := (exDecoder.decodeString ⟨ScalarNode, 7⟩).1, Buildfile := "", Args := none,
            Tags := Slice.nil } ∧
      readArgs h2.mem r.Args = [] ∧ r.Tags.read h2.mem = [] :=
  ⟨by decide, rfl, rfl, by decide,
   UnmarshalYAML_scalar_always exDecoder exHeap 0 ⟨ScalarNode, 7⟩ (by decide) rfl⟩

/-! ## Results of two resolutions of one definition -/

/-- Without spare capacity `append` allocates a new backing array at the
first free address and leaves the existing ones alone. -/
theorem goAppend_full (rt : Runtime) (m : Mem) (s : Slice) (x : String)
    (hfull : s.len = s.cap) :
    goAppend rt m s x =
      ({ arrays := m.arrays ++
            [s.read m ++ [x] ++
              List.replicate (max (s.len + 1) (rt.growCap (s.len + 1) s.cap) - (s.len + 1)) ""],
         maps := m.maps },
       { arr := some m.arrays.length, off := 0, len := s.len + 1,
         cap := max (s.len + 1) (rt.growCap (s.len + 1) s.cap) }) := by
  have hc : ¬ s.len < s.cap := by omega
  unfold goAppend
  cases s.arr with
  | none => rfl
  | some a => simp [hc]

/-- A slice over an existing backing array shows the same elements after a
new backing array is allocated. -/
theorem Slice.read_alloc (m : Mem) (t : Slice) (newArr : List String) (a : Addr)
    (ha : t.arr = some a) (hlt : a < m.arrays.length) :
    t.read { arrays := m.arrays ++ [newArr], maps := m.maps } = t.read m := by
  simp only [Slice.read, ha, List.getD_eq_getElem?_getD]
  rw [List.getElem?_append_left hlt]

/-- Claim C11, amended: when the tags of the definition have no spare capacity
(length equals capacity, as for a nil slice), the tags of a first resolution
with a non-empty name `n1` still read `T ++ [n1]` after the same definition is
resolved again with a non-empty name `n2`. -/
theorem ImageBuildInfo_tags_kept (rt : Runtime) (h : Heap) (p : Addr) (d : BuildDefinition)
    (n1 n2 cwd : String) (hp : h.defs[p]? = some d) (hv : d.Tags.valid h.mem = true)
    (hfull : d.Tags.len = d.Tags.cap) (hn1 : n1 ≠ "") (hn2 : n2 ≠ "") :
    ∃ (h1 h2 : Heap) (q1 q2 : Addr) (r1 : BuildDefinition),
      ImageBuildInfo rt h (some p) n1 cwd = some (h1, some q1) ∧
      h1.defs[q1]? = some r1 ∧ r1.Tags.read h1.mem = d.Tags.read h.mem ++ [n1] ∧
      ImageBuildInfo rt h1 (some p) n2 cwd = some (h2, some q2) ∧
      h2.defs[q1]? = some r1 ∧ r1.Tags.read h2.mem = d.Tags.read h.mem ++ [n1] := by
  have hlt : p < h.defs.length := by
    rcases Nat.lt_or_ge p h.defs.length with hl | hl
    · exact hl
    · rw [List.getElem?_eq_none hl] at hp; cases hp
  have hread := goAppend_read rt h.mem d.Tags n1 hv
  have h1eq := ImageBuildInfo_eq rt h p d n1 cwd hp
  simp only [hn1, if_false] at h1eq
  generalize hm1 : (goAppend rt h.mem d.Tags n1).1 = m1 at h1eq hread
  generalize ht1 : (goAppend rt h.mem d.Tags n1).2 = t1 at h1eq hread
  have hfst := congrArg Prod.fst (goAppend_full rt h.mem d.Tags n1 hfull)
  have hsnd := congrArg Prod.snd (goAppend_full rt h.mem d.Tags n1 hfull)
  rw [hm1] at hfst
  rw [ht1] at hsnd
  simp only at hfst hsnd
  have hp1 : (h.defs ++ [(⟨if IsAbs d.Context = true then d.Context else Join [cwd, d.Context],
      d.Buildfile, d.Args, t1⟩ : BuildDefinition)])[p]? = some d := by
    rw [List.getElem?_append_left hlt]
    exact hp
  have h2eq := ImageBuildInfo_eq rt
    (Heap.mk (h.defs ++ [⟨if IsAbs d.Context = true then d.Context else Join [cwd, d.Context],
      d.Buildfile, d.Args, t1⟩]) m1) p d n2 cwd hp1
  simp only [hn2, if_false] at h2eq
  refine ⟨_, _, _, _, _, h1eq, getElem?_append_new _ _, hread, h2eq, ?_, ?_⟩
  · simp only
    rw [List.getElem?_append_left (by simp)]
    exact getElem?_append_new _ _
  · simp only
    rw [goAppend_full rt m1 d.Tags n2 hfull]
    simp only
    rw [Slice.read_alloc m1 t1 _ h.mem.arrays.length (by rw [hsnd]) (by rw [hfst]; simp)]
    exact hread

/-- Claim C11, amended, at a concrete input: `exDefAbs` has nil tags, and the
first result keeps its tags `["a"]` after a second resolution with `b`. -/
theorem ImageBuildInfo_tags_kept_witness :
    exHeap.defs[1]? = some exDefAbs ∧ exDefAbs.Tags.valid exHeap.mem = true ∧
    exDefAbs.Tags.len = exDefAbs.Tags.cap ∧ "a" ≠ "" ∧ "b" ≠ "" ∧
    ∃ (h1 h2 : Heap) (q1 q2 : Addr) (r1 : BuildDefinition),
      ImageBuildInfo exRuntime exHeap (some 1) "a" "/work" = some (h1, some q1) ∧
      h1.defs[q1]? = some r1 ∧ r1.Tags.read h1.mem = exDefAbs.Tags.read exHeap.mem ++ ["a"] ∧
      ImageBuildInfo exRuntime h1 (some 1) "b" "/work" = some (h2, some q2) ∧
      h2.defs[q1]? = some r1 ∧ r1.Tags.read h2.mem = exDefAbs.Tags.read exHeap.mem ++ ["a"] :=
  ⟨by decide, by decide, by decide, by decide, by decide,
   ImageBuildInfo_tags_kept exRuntime exHeap 1 exDefAbs "a" "b" "/work"
     (by decide) (by decide) (by decide) (by decide) (by decide)⟩

/-! ## `Clean` ignores a trailing separator -/

/-- Copying a path element stops at the same place when a separator is
appended to the input. -/
theorem takeWhile_snoc_sep (l : List Char) :
    (l ++ ['/']).takeWhile (fun x => !IsPathSeparator x) =
      l.takeWhile (fun x => !IsPathSeparator x) := by
  induction l with
  | nil => simp [IsPathSeparator]
  | cons x l ih =>
    simp only [List.cons_append, List.takeWhile_cons, ih]

/-- The unread input after a path element keeps the appended separator. -/
theorem dropWhile_snoc_sep (l : List Char) :
    (l ++ ['/']).dropWhile (fun x => !IsPathSeparator x) =
      l.dropWhile (fun x => !IsPathSeparator x) ++ ['/'] := by
  induction l with
  | nil => simp [IsPathSeparator]
  | cons x l ih =>
    simp only [List.cons_append, List.dropWhile_cons, ih]
    split <;> rfl

/-- The loop of `Clean` treats a final separator as an empty path element:
appending one to the unread input does not change the result. -/
theorem cleanLoop_trailing_sep (rooted : Bool) (n : Nat) :
    ∀ (rest out : List Char) (dotdot : Nat), rest.length ≤ n →
      cleanLoop rooted (n + 1) (rest ++ ['/']) out dotdot = cleanLoop rooted n rest out dotdot := by
  induction n with
  | zero =>
    intro rest out dotdot hl
    have : rest = [] := List.length_eq_zero.mp (Nat.le_zero.mp hl)
    subst this
    simp [cleanLoop, IsPathSeparator]
  | succ m ih =>
    intro rest out dotdot hl
    cases rest with
    | nil => simp [cleanLoop, IsPathSeparator]
    | cons c rest1 =>
      have h1 : rest1.length ≤ m := by simpa using hl
      have h2 : rest1.tail.length ≤ m := by
        have := List.length_tail rest1
        omega
      have hA : ((rest1 ++ ['/']).isEmpty ||
            ((rest1 ++ ['/']).head?.map IsPathSeparator).getD false) =
          (rest1.isEmpty || (rest1.head?.map IsPathSeparator).getD false) := by
        cases rest1 <;> simp [IsPathSeparator]
      have hB : ((rest1 ++ ['/']).head? == some '.'
            && ((rest1 ++ ['/']).tail.isEmpty ||
                ((rest1 ++ ['/']).tail.head?.map IsPathSeparator).getD false)) =
          (rest1.head? == some '.'
            && (rest1.tail.isEmpty || (rest1.tail.head?.map IsPathSeparator).getD false)) := by
        cases rest1 with
        | nil => decide
        | cons x r2 => cases r2 <;> simp [IsPathSeparator]
      rw [List.cons_append, cleanLoop.eq_def rooted (m + 1 + 1), cleanLoop.eq_def rooted (m + 1)]
      simp only [Bool.and_assoc, hA, hB]
      split
      · exact ih _ _ _ h1
      · rename_i hsep
        split
        · exact ih _ _ _ h1
        · split
          · rename_i hdd
            have hne : rest1 ≠ [] := by
              intro he
              subst he
              simp at hdd
            rw [List.tail_append_of_ne_nil hne]
            split
            · exact ih _ _ _ h2
            · split
              · exact ih _ _ _ h2
              · exact ih _ _ _ h2
          · have hc : (!IsPathSeparator c) = true := by simpa using hsep
            have hl2 : ((c :: rest1).dropWhile (fun x => !IsPathSeparator x)).length ≤ m := by
              have hd : (c :: rest1).dropWhile (fun x => !IsPathSeparator x) =
                  rest1.dropWhile (fun x => !IsPathSeparator x) := by
                simp [List.dropWhile_cons, hc]
              rw [hd]
              exact Nat.le_trans (List.dropWhile_sublist _).length_le h1
            have e1 := takeWhile_snoc_sep (c :: rest1)
            have e2 := dropWhile_snoc_sep (c :: rest1)
            rw [List.cons_append] at e1 e2
            rw [e1, e2]
            exact ih _ _ _ hl2

/-- On a non-empty path, `Clean` gives the same result with a separator
appended. -/
theorem cleanChars_trailing_sep (c : Char) (t : List Char) :
    cleanChars (c :: t ++ ['/']) = cleanChars (c :: t) := by
  have key : ∀ (rooted : Bool) (rest out : List Char) (dotdot : Nat),
      cleanLoop rooted (rest.length + 2) (rest ++ ['/']) out dotdot =
        cleanLoop rooted (rest.length + 1) rest out dotdot := by
    intro rooted rest out dotdot
    rw [cleanLoop_fuel_succ rooted (rest.length + 1) (rest ++ ['/']) out dotdot (by simp),
      cleanLoop_trailing_sep rooted rest.length rest out dotdot (Nat.le_refl _),
      cleanLoop_fuel_succ rooted rest.length rest out dotdot (Nat.le_refl _)]
  by_cases hs : IsPathSeparator c = true
  · have := key true t ['/'] 1
    simp only [cleanChars, List.cons_append, hs, if_true, List.tail_cons, List.length_cons,
      List.length_append, List.length_nil, Nat.zero_add] at this ⊢
    rw [this]
  · have := cleanLoop_trailing_sep false (c :: t).length (c :: t) [] 0 (Nat.le_refl _)
    simp only [cleanChars, List.cons_append, hs, if_false, List.length_cons,
      List.length_append, List.length_nil, Nat.zero_add, Bool.false_eq_true] at this ⊢
    rw [this]

/-- Joining an empty second element onto a non-empty first one is `Clean` of
the first. -/
theorem Join_empty (cwd : String) (hne : cwd ≠ "") : Join [cwd, ""] = Clean cwd := by
  obtain ⟨cd⟩ := cwd
  cases cd with
  | nil => exact absurd rfl hne
  | cons c t =>
    have hb : ((⟨c :: t⟩ : String) != "") = true := by
      simp only [bne_iff_ne, ne_eq]
      exact hne
    have hsl : ("/" : String).data = ['/'] := rfl
    have hem : ("" : String).data = [] := rfl
    simp only [Join, hb, if_true, stringsJoin, Clean, String.data_append, hsl, hem,
      List.append_nil]
    rw [cleanChars_trailing_sep]

/-! ## `Clean` puts a rooted path into normal form -/

/-- A path always has at least one segment. -/
theorem splitPath_cons (l : List Char) : ∃ s ss, splitPath l = s :: ss := by
  induction l with
  | nil => exact ⟨[], [], rfl⟩
  | cons c cs ih =>
    obtain ⟨s, ss, h⟩ := ih
    unfold splitPath
    by_cases hc : IsPathSeparator c = true
    · exact ⟨[], splitPath cs, by simp [hc]⟩
    · exact ⟨c :: s, ss, by simp [hc, h]⟩

/-- A separator-free path is its own single segment. -/
theorem splitPath_noSep (s : List Char) (hs : ∀ c ∈ s, IsPathSeparator c = false) :
    splitPath s = [s] := by
  induction s with
  | nil => rfl
  | cons c cs ih =>
    have hc : IsPathSeparator c = false := hs c (List.mem_cons_self _ _)
    have ht := ih (fun x hx => hs x (List.mem_cons_of_mem _ hx))
    unfold splitPath
    simp [hc, ht]

/-- Splitting distributes over a separator. -/
theorem splitPath_append_sep (a b : List Char) :
    splitPath (a ++ '/' :: b) = splitPath a ++ splitPath b := by
  induction a with
  | nil =>
    have hsep : IsPathSeparator '/' = true := by decide
    simp [splitPath, hsep]
  | cons c cs ih =>
    obtain ⟨s, ss, h⟩ := splitPath_cons cs
    rw [List.cons_append, splitPath, splitPath, ih, h]
    by_cases hc : IsPathSeparator c = true
    · simp [hc]
    · simp [hc]

/-- Reading the stack from the bottom gives the leading slash and the body. -/
theorem stackOf_reverse (segs : List (List Char)) :
    (stackOf segs).reverse = '/' :: bodyOf segs := by
  induction segs with
  | nil => rfl
  | cons s rest ih =>
    cases rest with
    | nil => simp [stackOf, bodyOf]
    | cons s2 ss =>
      simp only [stackOf, bodyOf, List.reverse_append, List.reverse_cons, List.reverse_reverse, ih]
      simp

/-- The segments of the body are the segments held by the stack. -/
theorem splitPath_bodyOf (segs : List (List Char)) (hne : segs ≠ [])
    (hg : ∀ s ∈ segs, GoodSeg s) : splitPath (bodyOf segs) = segs.reverse := by
  induction segs with
  | nil => exact absurd rfl hne
  | cons s rest ih =>
    have hs : splitPath s = [s] := splitPath_noSep s (hg s (List.mem_cons_self _ _)).2.1
    cases rest with
    | nil => simpa [bodyOf] using hs
    | cons s2 ss =>
      have ht := ih (by simp) (fun x hx => hg x (List.mem_cons_of_mem _ hx))
      simp only [bodyOf, splitPath_append_sep, ht, hs]
      simp

/-- A stack of good segments stands for a path in normal form. -/
theorem isNormalised_stackOf (segs : List (List Char)) (hg : ∀ s ∈ segs, GoodSeg s) :
    isNormalised ⟨(stackOf segs).reverse⟩ = true := by
  have hsep : IsPathSeparator '/' = true := by decide
  rw [stackOf_reverse]
  cases segs with
  | nil => simp [isNormalised, bodyOf, hsep]
  | cons s rest =>
    simp only [isNormalised, hsep, Bool.true_and, Bool.or_eq_true, List.all_eq_true]
    right
    rw [splitPath_bodyOf (s :: rest) (by simp) hg]
    intro x hx
    have hx2 : x ∈ s :: rest := List.mem_reverse.mp hx
    obtain ⟨h1, _, h3, h4⟩ := hg x hx2
    simp [h1, h3, h4]

/-- Backtracking over the only segment stops at the leading slash. -/
theorem cleanBacktrack_last (u : List Char) (hu : ∀ c ∈ u, IsPathSeparator c = false)
    (hne : u ≠ []) : cleanBacktrack 1 (u ++ ['/']) = ['/'] := by
  induction u with
  | nil => exact absurd rfl hne
  | cons x u ih =>
    have hx : IsPathSeparator x = false := hu x (List.mem_cons_self _ _)
    cases u with
    | nil => simp [cleanBacktrack]
    | cons y u2 =>
      have := ih (fun c hc => hu c (List.mem_cons_of_mem _ hc)) (by simp)
      rw [List.cons_append, cleanBacktrack]
      simp only [List.cons_append] at this
      simp [hx, this]

/-- Backtracking over the top segment stops after the separator below it. -/
theorem cleanBacktrack_top (u T : List Char) (hu : ∀ c ∈ u, IsPathSeparator c = false)
    (hT : T ≠ []) : cleanBacktrack 1 (u ++ '/' :: T) = T := by
  have hsep : IsPathSeparator '/' = true := by decide
  induction u with
  | nil => simp [cleanBacktrack, hsep]
  | cons x u ih =>
    have hx : IsPathSeparator x = false := hu x (List.mem_cons_self _ _)
    have := ih (fun c hc => hu c (List.mem_cons_of_mem _ hc))
    have hlen : 1 < (u ++ '/' :: T).length := by
      cases T with
      | nil => exact absurd rfl hT
      | cons t T2 => simp only [List.length_append, List.length_cons]; omega
    have hcond : (decide ((u ++ '/' :: T).length > 1) && !IsPathSeparator x) = true := by
      rw [hx]
      simpa using hlen
    rw [List.cons_append, cleanBacktrack, if_pos hcond]
    exact this

/-- The stack is never empty. -/
theorem stackOf_ne_nil (segs : List (List Char)) : stackOf segs ≠ [] := by
  cases segs with
  | nil => simp [stackOf]
  | cons s rest =>
    cases rest with
    | nil => simp [stackOf]
    | cons s2 ss => simp [stackOf]

/-- A stack holding a segment is longer than the leading slash. -/
theorem stackOf_length_cons (s : List Char) (ss : List (List Char)) (hs : s ≠ []) :
    1 < (stackOf (s :: ss)).length := by
  have hpos : 0 < s.length := List.length_pos.mpr hs
  cases ss with
  | nil => simp [stackOf]; omega
  | cons s2 ss2 => simp [stackOf]; omega

/-- A `..` element removes the top segment of the stack. -/
theorem cleanBacktrack_stackOf (s : List Char) (ss : List (List Char)) (hs : GoodSeg s) :
    cleanBacktrack 1 (stackOf (s :: ss)) = stackOf ss := by
  have hu : ∀ c ∈ s.reverse, IsPathSeparator c = false :=
    fun c hc => hs.2.1 c (List.mem_reverse.mp hc)
  cases ss with
  | nil =>
    simp only [stackOf]
    exact cleanBacktrack_last s.reverse hu (by simpa using hs.1)
  | cons s2 ss2 =>
    simp only [stackOf]
    exact cleanBacktrack_top s.reverse _ hu (stackOf_ne_nil _)

/-- Pushing a path element onto the stack, with the separator the loop adds
when the stack is more than the leading slash. -/
theorem stackOf_push (elem : List Char) (segs : List (List Char))
    (hg : ∀ s ∈ segs, GoodSeg s) :
    elem.reverse ++
        (if ((true && (stackOf segs).length != 1) || (!true && (stackOf segs).length != 0)) = true
          then '/' :: stackOf segs else stackOf segs) =
      stackOf (elem :: segs) := by
  cases segs with
  | nil => simp [stackOf]
  | cons s ss =>
    have hl := stackOf_length_cons s ss (hg s (List.mem_cons_self _ _)).1
    have hne : (stackOf (s :: ss)).length ≠ 1 := by omega
    simp [stackOf, hne]

/-- The element copied in the default case of the loop is a good segment: it
is neither empty, nor `.`, nor `..`, because the earlier cases did not apply. -/
theorem goodSeg_takeWhile (c : Char) (rest1 : List Char)
    (h1 : ¬ IsPathSeparator c = true)
    (h2 : ¬ (c == '.' && (rest1.isEmpty || (rest1.head?.map IsPathSeparator).getD false)) = true)
    (h3 : ¬ (c == '.' && rest1.head? == some '.'
          && (rest1.tail.isEmpty || (rest1.tail.head?.map IsPathSeparator).getD false)) = true) :
    GoodSeg ((c :: rest1).takeWhile (fun x => !IsPathSeparator x)) := by
  have hc : IsPathSeparator c = false := by simpa using h1
  have he : (c :: rest1).takeWhile (fun x => !IsPathSeparator x) =
      c :: rest1.takeWhile (fun x => !IsPathSeparator x) := by
    simp [List.takeWhile_cons, hc]
  rw [he]
  refine ⟨by simp, ?_, ?_, ?_⟩
  · intro x hx
    rcases List.mem_cons.mp hx with hxc | hxt
    · rw [hxc]; exact hc
    · have := List.mem_takeWhile_imp hxt
      simpa using this
  · intro heq
    have hcd : c = '.' := by
      have := (List.cons.inj heq).1
      exact this
    have htw : rest1.takeWhile (fun x => !IsPathSeparator x) = [] := (List.cons.inj heq).2
    apply h2
    cases rest1 with
    | nil => simp [hcd]
    | cons y r2 =>
      by_cases hy : IsPathSeparator y = true
      · simp [hcd, hy]
      · simp [List.takeWhile_cons, hy] at htw
  · intro heq
    have hcd : c = '.' := (List.cons.inj heq).1
    have htw : rest1.takeWhile (fun x => !IsPathSeparator x) = ['.'] := (List.cons.inj heq).2
    apply h3
    cases rest1 with
    | nil => simp at htw
    | cons y r2 =>
      by_cases hy : IsPathSeparator y = true
      · simp [List.takeWhile_cons, hy] at htw
      · have e : (y :: r2).takeWhile (fun x => !IsPathSeparator x) =
            y :: r2.takeWhile (fun x => !IsPathSeparator x) := by
          simp [List.takeWhile_cons, hy]
        rw [e] at htw
        have hyd : y = '.' := (List.cons.inj htw).1
        have htw2 : r2.takeWhile (fun x => !IsPathSeparator x) = [] := (List.cons.inj htw).2
        cases r2 with
        | nil => simp [hcd, hyd]
        | cons z r3 =>
          by_cases hz : IsPathSeparator z = true
          · simp [hcd, hyd, hz]
          · simp [List.takeWhile_cons, hz] at htw2

/-- The loop of `Clean` on a rooted path keeps the stack a leading slash
followed by good segments. -/
theorem cleanLoop_normal (fuel : Nat) :
    ∀ (rest : List Char) (segs : List (List Char)), (∀ s ∈ segs, GoodSeg s) →
      ∃ segs2 : List (List Char), (∀ s ∈ segs2, GoodSeg s) ∧
        cleanLoop true fuel rest (stackOf segs) 1 = stackOf segs2 := by
  induction fuel with
  | zero => intro rest segs hg; exact ⟨segs, hg, by simp [cleanLoop]⟩
  | succ fuel ih =>
    intro rest segs hg
    cases rest with
    | nil => exact ⟨segs, hg, by simp [cleanLoop]⟩
    | cons c rest1 =>
      unfold cleanLoop
      simp only
      split
      · exact ih _ _ hg
      · rename_i h1
        split
        · exact ih _ _ hg
        · rename_i h2
          split
          · split
            · rename_i hgt
              cases segs with
              | nil => simp [stackOf] at hgt
              | cons s ss =>
                rw [cleanBacktrack_stackOf s ss (hg s (List.mem_cons_self _ _))]
                exact ih _ _ (fun x hx => hg x (List.mem_cons_of_mem _ hx))
            · simp only [Bool.not_true, Bool.false_eq_true, if_false]
              exact ih _ _ hg
          · rename_i h3
            rw [stackOf_push _ segs hg]
            apply ih
            intro x hx
            rcases List.mem_cons.mp hx with hxe | hxs
            · rw [hxe]; exact goodSeg_takeWhile c rest1 h1 h2 h3
            · exact hg x hxs

/-- The function `Clean` puts every path that starts with a slash into normal
form. -/
theorem isNormalised_cleanChars (t : List Char) :
    isNormalised ⟨cleanChars ('/' :: t)⟩ = true := by
  obtain ⟨segs, hg, hseg⟩ := cleanLoop_normal ('/' :: t).length t [] (by simp)
  have hsep : IsPathSeparator '/' = true := by decide
  have hlen : ¬ ((stackOf segs).length == 0) = true := by
    have := stackOf_ne_nil segs
    simpa using this
  have hst : stackOf [] = ['/'] := rfl
  rw [hst] at hseg
  simp only [cleanChars, hsep, if_true, List.tail_cons, hseg, hlen, if_false]
  exact isNormalised_stackOf segs hg

/-- Joining onto an absolute first element gives a path in normal form. -/
theorem isNormalised_Join (cwd ctx : String) (hcwd : IsAbs cwd = true) :
    isNormalised (Join [cwd, ctx]) = true := by
  obtain ⟨cd⟩ := cwd
  cases cd with
  | nil => simp [IsAbs] at hcwd
  | cons c t =>
    have hc : c = '/' := by simpa [IsAbs] using hcwd
    subst hc
    have hne : ((⟨'/' :: t⟩ : String) != "") = true := by
      simp only [bne_iff_ne, ne_eq]
      intro h
      have := congrArg String.data h
      simp at this
    have hsl : ("/" : String).data = ['/'] := rfl
    simp only [Join, hne, if_true, stringsJoin, Clean, String.data_append, hsl,
      List.cons_append, List.append_assoc]
    exact isNormalised_cleanChars _

/-! ## Normal form of the resolved context -/

/-- Claim C12: with a relative `Context` and an absolute `cwd`, the resolved
context is an absolute path in normal form: after the leading separator it
has no `.` segment, no `..` segment and no empty segment (no doubled and no
trailing separator), unless it is the root itself. -/
theorem ImageBuildInfo_context_normalised (rt : Runtime) (h : Heap) (p : Addr)
    (d : BuildDefinition) (name cwd : String) (hp : h.defs[p]? = some d)
    (hrel : IsAbs d.Context = false) (hcwd : IsAbs cwd = true) :
    ∃ (h2 : Heap) (q : Addr) (r : BuildDefinition),
      ImageBuildInfo rt h (some p) name cwd = some (h2, some q) ∧ h2.defs[q]? = some r ∧
      r.Context = Join [cwd, d.Context] ∧ isNormalised r.Context = true := by
  refine ⟨_, _, _, ImageBuildInfo_eq rt h p d name cwd hp, getElem?_append_new _ _, ?_, ?_⟩
  · simp [hrel]
  · simp only [hrel, Bool.false_eq_true, if_false]
    exact isNormalised_Join cwd d.Context hcwd

/-- Claim C12 at the concrete input of the claim: context `../x/./y` under
`/a/b` resolves to `/a/x/y`. -/
theorem ImageBuildInfo_context_normalised_witness :
    exHeapPaths.defs[1]? = some ⟨"../x/./y", "", none, Slice.nil⟩ ∧
    IsAbs "../x/./y" = false ∧ IsAbs "/a/b" = true ∧
    Join ["/a/b", "../x/./y"] = "/a/x/y" ∧
    ∃ (h2 : Heap) (q : Addr) (r : BuildDefinition),
      ImageBuildInfo exRuntime exHeapPaths (some 1) "img" "/a/b" = some (h2, some q) ∧
      h2.defs[q]? = some r ∧
      r.Context = Join ["/a/b", "../x/./y"] ∧ isNormalised r.Context = true :=
  ⟨by decide, by decide, by decide, by decide,
   ImageBuildInfo_context_normalised exRuntime exHeapPaths 1 ⟨"../x/./y", "", none, Slice.nil⟩
     "img" "/a/b" (by decide) (by decide) (by decide)⟩

/-- Claim C15: with the empty `Context` and an absolute `cwd`, the resolved
context is `filepath.Clean(cwd)`: the empty element adds nothing to `cwd`. -/
theorem ImageBuildInfo_context_empty (rt : Runtime) (h : Heap) (p : Addr)
    (d : BuildDefinition) (name cwd : String) (hp : h.defs[p]? = some d)
    (hctx : d.Context = "") (hcwd : IsAbs cwd = true) :
    ∃ (h2 : Heap) (q : Addr) (r : BuildDefinition),
      ImageBuildInfo rt h (some p) name cwd = some (h2, some q) ∧ h2.defs[q]? = some r ∧
      r.Context = Clean cwd := by
  have hne : cwd ≠ "" := by
    intro he
    rw [he] at hcwd
    exact absurd hcwd (by decide)
  have hrel : IsAbs d.Context = false := by rw [hctx]; decide
  refine ⟨_, _, _, ImageBuildInfo_eq rt h p d name cwd hp, getElem?_append_new _ _, ?_⟩
  simp only [hrel, Bool.false_eq_true, if_false, hctx]
  exact Join_empty cwd hne

/-- Claim C15 at a concrete input: the empty context under `/work//dir/`
resolves to `/work/dir`. -/
theorem ImageBuildInfo_context_empty_witness :
    exHeapPaths.defs[0]? = some ⟨"", "", none, Slice.nil⟩ ∧ IsAbs "/work//dir/" = true ∧
    Clean "/work//dir/" = "/work/dir" ∧
    ∃ (h2 : Heap) (q : Addr) (r : BuildDefinition),
      ImageBuildInfo exRuntime exHeapPaths (some 0) "img" "/work//dir/" = some (h2, some q) ∧
      h2.defs[q]? = some r ∧ r.Context = Clean "/work//dir/" :=
  ⟨by decide, by decide, by decide,
   ImageBuildInfo_context_empty exRuntime exHeapPaths 0 ⟨"", "", none, Slice.nil⟩
     "img" "/work//dir/" (by decide) rfl (by decide)⟩

end Launchr
